import Mathlib

/-!
Shallow embedding of the `roost` diagnostic tool (`src/main.rs`).

Rust strings are modelled as `List Char`; byte-indexed operations on them
(`line[a..b]`, `line.len()`) go through an explicit UTF-8 byte-length model.
`usize` values are modelled as `Nat`; the arithmetic operations whose
debug-mode overflow behaviour a claim depends on (the subtraction
`line.len() - 1`) are modelled with an explicit checked subtraction that
returns `none` on underflow (a Rust debug-build panic).  Fallible
operations (panicking slices, panicking input handling) return `Option`.
-/

/-- The decimal digit characters emitted by Rust's integer `Display`. -/
def decDigit : Nat → Char
  | 0 => '0' | 1 => '1' | 2 => '2' | 3 => '3' | 4 => '4'
  | 5 => '5' | 6 => '6' | 7 => '7' | 8 => '8' | _ => '9'

/-- Fuel-indexed decimal rendering (most significant digit first). -/
def natDigitsAux : Nat → Nat → List Char
  | 0, _ => []
  | fuel + 1, n =>
    if n < 10 then [decDigit n]
    else natDigitsAux fuel (n / 10) ++ [decDigit (n % 10)]

/-- Decimal rendering of a `usize`, as produced by Rust's `to_string` /
`{}` formatting. -/
def natDigits (n : Nat) : List Char := natDigitsAux (n + 1) n

/-- Numeric value of a list of decimal digit characters. -/
def digitsVal (s : List Char) : Nat :=
  s.foldl (fun a c => 10 * a + (c.toNat - 48)) 0

/-- Number of bytes of the UTF-8 encoding of a character (Rust `char`). -/
def charUtf8Len (c : Char) : Nat :=
  if c.toNat < 0x80 then 1
  else if c.toNat < 0x800 then 2
  else if c.toNat < 0x10000 then 3
  else 4

/-- Byte length of a string: Rust `str::len`. -/
def byteLen (s : List Char) : Nat := (s.map charUtf8Len).sum

/-- Characters of the first `n` bytes of a string; `none` when `n` is past
the end or falls strictly inside a character (the byte-slice panics of
Rust `&s[..n]`). -/
def takeBytes : List Char → Nat → Option (List Char)
  | _, 0 => some []
  | [], _ + 1 => none
  | c :: cs, n + 1 =>
    if charUtf8Len c ≤ n + 1 then (takeBytes cs (n + 1 - charUtf8Len c)).map (c :: ·)
    else none

/-- Characters after the first `n` bytes of a string; `none` when `n` is past
the end or falls strictly inside a character (Rust `&s[n..]`). -/
def dropBytes : List Char → Nat → Option (List Char)
  | s, 0 => some s
  | [], _ + 1 => none
  | c :: cs, n + 1 =>
    if charUtf8Len c ≤ n + 1 then dropBytes cs (n + 1 - charUtf8Len c)
    else none

/-- Rust `&s[a..b]`: byte-indexed slice, `none` exactly when the slice
would panic (`a > b`, a bound past the end, or a bound inside a
multi-byte character). -/
def sliceBytes (s : List Char) (a b : Nat) : Option (List Char) :=
  if a ≤ b then (dropBytes s a).bind (fun t => takeBytes t (b - a)) else none

/-- Debug-mode `usize` subtraction: `none` models the underflow panic. -/
def checkedSub (a b : Nat) : Option Nat :=
  if b ≤ a then some (a - b) else none

/-- `result.strip_suffix("\n").expect(...)`: removes exactly one trailing
newline, `none` models the panic when there is none. -/
def stripSuffixNewline (s : List Char) : Option (List Char) :=
  if s.getLast? = some '\n' then some s.dropLast else none

/-- `bold` (src/main.rs:112): wraps a string in the ANSI bold escape pair. -/
def bold (s : List Char) : List Char :=
  ['\x1b', '[', '1', 'm'] ++ s ++ ['\x1b', '[', '0', 'm']

/-- `color` (src/main.rs:116): wraps a string in the ANSI foreground-color
escape pair (`ESC[3<code>m` ... `ESC[39m`). -/
def color (s : List Char) (code : Nat) : List Char :=
  ['\x1b', '[', '3', decDigit code, 'm'] ++ s ++ ['\x1b', '[', '3', '9', 'm']

/-- Largest `usize` value (the source targets a 64-bit platform). -/
def USIZE_MAX : Nat := 2 ^ 64 - 1

/-- Rust `str::parse::<usize>`: an optional leading `+`, then one or more
decimal digits, value at most `usize::MAX`; `none` on anything else. -/
def parseUsize (s : List Char) : Option Nat :=
  let t := match s with
    | '+' :: r => r
    | _ => s
  if t.isEmpty then none
  else if t.all Char.isDigit then
    if digitsVal t ≤ USIZE_MAX then some (digitsVal t) else none
  else none

/-- `RoostError` (src/main.rs:37). -/
inductive RoostError
  | ValueError (details : List Char)
deriving DecidableEq, Repr

/-- `string` (src/main.rs:108): the identity validator for text fields. -/
def string (s : List Char) : Except RoostError (List Char) :=
  Except.ok s

/-- `int_factory` (src/main.rs:177): the bounded numeric validator. -/
def int_factory (min_value max_value : Nat) (raw_value : List Char) :
    Except RoostError Nat :=
  match parseUsize raw_value with
  | none => Except.error (RoostError.ValueError "invalid value".toList)
  | some value =>
    if value < min_value then Except.error (RoostError.ValueError "value is too smol".toList)
    else if value > max_value then Except.error (RoostError.ValueError "value is too big".toList)
    else Except.ok value

def DEFAULT_LINENO : Nat := 1
def DEFAULT_PATH : List Char := "<stdin>".toList
def DEFAULT_ERRNUM : Nat := 69

/-- `ErrorData` (src/main.rs:57): the fully collected diagnostic record. -/
structure ErrorData where
  summary : List Char
  line : List Char
  message : List Char
  spos : Nat
  epos : Nat
  lineno : Nat
  path : List Char
  errnum : Nat
deriving DecidableEq, Repr

/-- `ErrorData::get_errid` (src/main.rs:69): `format!("E{:0fill$}", errnum,
fill = 4)` — the decimal digits zero-padded on the left to width 4. -/
def ErrorData.get_errid (d : ErrorData) : List Char :=
  'E' :: (List.replicate (4 - (natDigits d.errnum).length) '0' ++ natDigits d.errnum)

/-- `empty_line` (src/main.rs:75): `lineno_len + 1` spaces then `"| "`,
colored; the blank gutter reused on lines without a line number. -/
def ErrorData.emptyLine (d : ErrorData) : List Char :=
  color (List.replicate ((natDigits d.lineno).length + 1) ' ' ++ "| ".toList) 4

/-- The source row's line-number gutter (src/main.rs:92):
`color(format!("{} | ", lineno), 4)`. -/
def ErrorData.sourceGutter (d : ErrorData) : List Char :=
  color (natDigits d.lineno ++ " | ".toList) 4

/-- The caret line (src/main.rs:97-100): blank gutter, `spos` spaces,
`epos - spos` bold+colored carets, a space and the bold+colored message. -/
def ErrorData.caretLine (d : ErrorData) : List Char :=
  d.emptyLine ++ List.replicate d.spos ' '
    ++ bold (color (List.replicate (d.epos - d.spos) '^') 1)
    ++ ' ' :: bold (color d.message 1)

/-- `ErrorData::print` (src/main.rs:73): the full rendered diagnostic
(including the trailing newline added by `writeln!`); `none` models the
byte-slice panics of lines 93-95.  The numeric formatting of `spos + 1`
is plain `Nat` arithmetic: it cannot overflow for any collectable record. -/
def ErrorData.print (d : ErrorData) : Option (List Char) := do
  let pre ← sliceBytes d.line 0 d.spos
  let mid ← sliceBytes d.line d.spos d.epos
  let post ← dropBytes d.line d.epos
  some (bold (color ("error[".toList ++ d.get_errid ++ "]".toList) 1)
    ++ bold (": ".toList ++ d.summary ++ ['\n'])
    ++ List.replicate (natDigits d.lineno).length ' '
    ++ color "--> ".toList 4
    ++ d.path ++ ':' :: natDigits d.lineno ++ ':' :: natDigits (d.spos + 1) ++ ['\n']
    ++ d.emptyLine ++ ['\n']
    ++ d.sourceGutter ++ pre ++ bold (color mid 1) ++ post ++ ['\n']
    ++ d.caretLine ++ ['\n']
    ++ d.emptyLine ++ ['\n'])

/-- `make_prompt` (src/main.rs:120): `"<name>: "`, or
`"<name> (default=<default>): "` when a default is present, in bold. -/
def make_prompt (name : List Char) (default : Option (List Char)) : List Char :=
  bold ((name ++ match default with
    | some d => color (" (default=".toList ++ d ++ ")".toList) 4
    | none => []) ++ ": ".toList)

/-- The stderr message of src/main.rs:156-159 for an empty required field. -/
def errEmptyMsg (name : List Char) : List Char :=
  "ERR: field '".toList ++ name ++ "' cannot be empty".toList

/-- The stderr message of src/main.rs:165-171 for a rejected input
(`tyName` stands for the opaque `any::type_name::<F>()` text, which no
claim depends on). -/
def errInvalidMsg (raw tyName : List Char) : List Char :=
  "ERR: '".toList ++ raw ++ "' is not a valid ".toList ++ tyName

/-- Outcome of one successful `field` call: the returned value, the unread
remainder of standard input, the stderr lines emitted, and how many times
the validator was invoked. -/
structure FieldResult (α : Type) where
  value : α
  rest : List (List Char)
  errs : List (List Char)
  calls : Nat
deriving DecidableEq, Repr

/-- `field` (src/main.rs:130): the validated prompt loop, as a function of
the sequence of raw `read_line` results.  The first component is the list
of prompts written to stdout (one per iteration); `none` models a panic
(missing trailing newline / end of input).  Note the source's control
flow: an empty input with a default returns the default before the
validator; an empty input without a default emits the error message but
then still falls through to the `match field_type(result)` (there is no
`continue`). -/
def field (name tyName : List Char) (toStr : α → List Char)
    (field_type : List Char → Except RoostError α) (default : Option α) :
    List (List Char) → List (List Char) × Option (FieldResult α)
  | [] => ([make_prompt name (default.map toStr)], none)
  | raw :: rest =>
    let prompt := make_prompt name (default.map toStr)
    match stripSuffixNewline raw with
    | none => ([prompt], none)
    | some result =>
      if h : result = [] ∧ default.isSome then
        ([prompt], some ⟨default.get h.2, rest, [], 0⟩)
      else
        let emptyErrs := if result = [] then [bold (color (errEmptyMsg name) 1)] else []
        match field_type result with
        | Except.ok value => ([prompt], some ⟨value, rest, emptyErrs, 1⟩)
        | Except.error _ =>
          let pr := field name tyName toStr field_type default rest
          (prompt :: pr.1,
            pr.2.map fun fr =>
              ⟨fr.value, fr.rest,
                emptyErrs ++ bold (color (errInvalidMsg result tyName) 3) :: fr.errs,
                fr.calls + 1⟩)

/-- `last_char_no_len` (src/main.rs:209): digit count of the byte length,
plus one — the fixed column width of the ruler. -/
def last_char_no_len (line : List Char) : Nat :=
  (natDigits (byteLen line)).length + 1

/-- Rust `{x:^width$}` centering: left pad `⌊(w-len)/2⌋`, remainder right. -/
def centerPad (s : List Char) (w : Nat) : List Char :=
  List.replicate ((w - s.length) / 2) ' ' ++ s
    ++ List.replicate ((w - s.length) - (w - s.length) / 2) ' '

/-- The ruler's index row (src/main.rs:214-219): one centered block per
value of `0..line.len()` — i.e. per *byte* of the line. -/
def indexRow (line : List Char) : List Char :=
  (List.map (fun i => centerPad (natDigits i) (last_char_no_len line))
    (List.range (byteLen line))).flatten

/-- The ruler's character row (src/main.rs:222-224): one centered block per
character of the line. -/
def charRow (line : List Char) : List Char :=
  (List.map (fun c => centerPad [c] (last_char_no_len line)) line).flatten

/-- `print_line_helper` (src/main.rs:208): rule, index row, character row,
rule. -/
def print_line_helper (line : List Char) : List Char :=
  List.replicate (last_char_no_len line * byteLen line) '─' ++ ['\n']
    ++ indexRow line ++ ['\n']
    ++ charRow line ++ ['\n']
    ++ List.replicate (last_char_no_len line * byteLen line) '─' ++ ['\n']

/-- The claim's notion of the horizontal center of the item inside one
centered width-`w` block, in doubled coordinates (a run of cells
`[a, a+len)` has doubled center `2*a + len - 1`); block `i` of a row adds
the same `2*i*w` to every item, so two blocks at the same index are
center-aligned iff these relative values agree. -/
def blockCenter2 (s : List Char) (w : Nat) : Nat :=
  2 * ((w - s.length) / 2) + (s.length - 1)

/-- The opaque `any::type_name` text for the `string` validator; it only
appears inside `errInvalidMsg`, whose exact text no claim constrains. -/
def tyStr : List Char := []

/-- The opaque `any::type_name` text for the `int_factory` validators. -/
def tyInt : List Char := []

/-- The collection state after the `summary`, `line` and
`error start position` fields (src/main.rs:237-246). -/
structure MidState where
  summary : List Char
  line : List Char
  spos : Nat
  rest : List (List Char)
deriving DecidableEq, Repr

/-- `main`'s collection phase up to and including the start offset
(src/main.rs:237-246), with the stdout writes (prompts and the column
ruler) traced in order. -/
def collectToSpos (inputs : List (List Char)) :
    List (List Char) × Option MidState :=
  let p1 := field "summary".toList tyStr id string none inputs
  match p1.2 with
  | none => (p1.1, none)
  | some f1 =>
    let p2 := field "line".toList tyStr id string none f1.rest
    match p2.2 with
    | none => (p1.1 ++ p2.1, none)
    | some f2 =>
      let p3 := field "error start position".toList tyInt natDigits
        (int_factory 0 (byteLen f2.value)) (some 0) f2.rest
      match p3.2 with
      | none => (p1.1 ++ p2.1 ++ (print_line_helper f2.value :: p3.1), none)
      | some f3 =>
        (p1.1 ++ p2.1 ++ (print_line_helper f2.value :: p3.1),
          some ⟨f1.value, f2.value, f3.value, f3.rest⟩)

/-- `main`'s full collection phase (src/main.rs:237-263): the stdout trace
and the diagnostic record, `none` on a panic.  The bounds of the end
position field are evaluated before its prompt, so `line.len() - 1`
(checked subtraction: debug-mode underflow panic) precedes the
`error end position` field. -/
def collectPhase (inputs : List (List Char)) :
    List (List Char) × Option ErrorData :=
  match collectToSpos inputs with
  | (tr, none) => (tr, none)
  | (tr, some st) =>
    match checkedSub (byteLen st.line) 1 with
    | none => (tr, none)
    | some m =>
      let p4 := field "error end position".toList tyInt natDigits
        (int_factory (st.spos + 1) m) (some m) st.rest
      match p4.2 with
      | none => (tr ++ p4.1, none)
      | some f4 =>
        let p5 := field "message".toList tyStr id string none f4.rest
        match p5.2 with
        | none => (tr ++ p4.1 ++ p5.1, none)
        | some f5 =>
          let p6 := field "line number".toList tyInt natDigits
            (int_factory 0 USIZE_MAX) (some DEFAULT_LINENO) f5.rest
          match p6.2 with
          | none => (tr ++ p4.1 ++ p5.1 ++ p6.1, none)
          | some f6 =>
            let p7 := field "path".toList tyStr id string (some DEFAULT_PATH) f6.rest
            match p7.2 with
            | none => (tr ++ p4.1 ++ p5.1 ++ p6.1 ++ p7.1, none)
            | some f7 =>
              let p8 := field "error number".toList tyInt natDigits
                (int_factory 0 USIZE_MAX) (some DEFAULT_ERRNUM) f7.rest
              match p8.2 with
              | none => (tr ++ p4.1 ++ p5.1 ++ p6.1 ++ p7.1 ++ p8.1, none)
              | some f8 =>
                (tr ++ p4.1 ++ p5.1 ++ p6.1 ++ p7.1 ++ p8.1,
                  some ⟨st.summary, st.line, f5.value, st.spos, f4.value + 1,
                    f6.value, f7.value, f8.value⟩)

/-- Drop characters up to and including the first `'m'` — the tail of an
ANSI escape sequence. -/
def dropUntilM : List Char → List Char
  | [] => []
  | c :: rest => if c = 'm' then rest else dropUntilM rest

/-- Remove the ANSI escape sequences (`ESC ... m`) from a string, leaving
the visible characters. -/
def stripAnsi (l : List Char) : List Char :=
  match l with
  | [] => []
  | c :: rest =>
    if c = '\x1b' then stripAnsi (dropUntilM rest)
    else c :: stripAnsi rest
termination_by l.length
decreasing_by
  · have hlen : ∀ u : List Char, (dropUntilM u).length ≤ u.length := by
      intro u
      induction u with
      | nil => simp [dropUntilM]
      | cons d u ih =>
        by_cases hd : d = 'm'
        · simp [dropUntilM, hd]
        · simp only [dropUntilM, hd, if_false, List.length_cons]
          omega
    simpa using Nat.lt_succ_of_le (hlen rest)
  · simp

/-- Sample record used by the C1 witness. -/
def caretSample : ErrorData :=
  ⟨"s".toList, "abc".toList, "m".toList, 1, 3, 7, "p".toList, 69⟩

/-- Sample record used by the C3 witness. -/
def asciiSample : ErrorData :=
  ⟨"s".toList, "ab".toList, "m".toList, 0, 2, 1, "p".toList, 69⟩

theorem natDigitsAux_fuel_irrel (f : Nat) :
    ∀ g n, n < f → n < g → natDigitsAux f n = natDigitsAux g n := by
  induction f with
  | zero => intro g n h; omega
  | succ f ih =>
    intro g n hf hg
    match g, hg with
    | g + 1, _ =>
      by_cases h10 : n < 10
      · simp [natDigitsAux, h10]
      · have hdiv : n / 10 < f := by
          have := Nat.div_lt_self (by omega : 0 < n) (by omega : 1 < 10)
          omega
        have hdivg : n / 10 < g := by
          have := Nat.div_lt_self (by omega : 0 < n) (by omega : 1 < 10)
          omega
        simp only [natDigitsAux, h10, if_false]
        rw [ih g (n / 10) hdiv hdivg]

theorem natDigits_lt10 (n : Nat) (h : n < 10) : natDigits n = [decDigit n] := by
  simp [natDigits, natDigitsAux, h]

theorem natDigits_ge10 (n : Nat) (h : 10 ≤ n) :
    natDigits n = natDigits (n / 10) ++ [decDigit (n % 10)] := by
  have hdiv : n / 10 < n := Nat.div_lt_self (by omega) (by omega)
  show natDigitsAux (n + 1) n = _
  simp only [natDigitsAux, Nat.not_lt.mpr h, if_false]
  rw [natDigitsAux_fuel_irrel n (n / 10 + 1) (n / 10) (by omega) (by omega)]
  rfl

theorem decDigit_toNat (n : Nat) (h : n < 10) : (decDigit n).toNat = 48 + n := by
  interval_cases n <;> rfl

theorem decDigit_isDigit (n : Nat) : (decDigit n).isDigit := by
  unfold decDigit
  split <;> decide

theorem digitsVal_append_singleton (s : List Char) (c : Char) :
    digitsVal (s ++ [c]) = 10 * digitsVal s + (c.toNat - 48) := by
  simp [digitsVal, List.foldl_append]

theorem digitsVal_natDigits (n : Nat) : digitsVal (natDigits n) = n := by
  induction n using Nat.strong_induction_on with
  | _ n ih =>
    by_cases h : n < 10
    · rw [natDigits_lt10 n h]
      simp [digitsVal, decDigit_toNat n h]
    · rw [natDigits_ge10 n (by omega)]
      rw [digitsVal_append_singleton, ih (n / 10) (Nat.div_lt_self (by omega) (by omega))]
      rw [decDigit_toNat (n % 10) (Nat.mod_lt n (by omega))]
      omega

theorem natDigits_ne_nil (n : Nat) : natDigits n ≠ [] := by
  by_cases h : n < 10
  · rw [natDigits_lt10 n h]; simp
  · rw [natDigits_ge10 n (by omega)]; simp

theorem natDigits_all_digit (n : Nat) : ∀ c ∈ natDigits n, c.isDigit := by
  induction n using Nat.strong_induction_on with
  | _ n ih =>
    by_cases h : n < 10
    · rw [natDigits_lt10 n h]
      intro c hc
      simp at hc
      subst hc
      exact decDigit_isDigit n
    · rw [natDigits_ge10 n (by omega)]
      intro c hc
      rcases List.mem_append.mp hc with h1 | h1
      · exact ih (n / 10) (Nat.div_lt_self (by omega) (by omega)) c h1
      · simp at h1
        subst h1
        exact decDigit_isDigit (n % 10)

theorem natDigits_length_pos (n : Nat) : 1 ≤ (natDigits n).length := by
  cases hn : natDigits n with
  | nil => exact absurd hn (natDigits_ne_nil n)
  | cons a l => simp

theorem natDigits_length_mono {i j : Nat} (h : i ≤ j) :
    (natDigits i).length ≤ (natDigits j).length := by
  induction j using Nat.strong_induction_on generalizing i with
  | _ j ih =>
    by_cases hj : j < 10
    · rw [natDigits_lt10 i (by omega), natDigits_lt10 j hj]
      simp
    · by_cases hi : i < 10
      · rw [natDigits_lt10 i hi, natDigits_ge10 j (by omega)]
        have h1 : 1 ≤ (natDigits (j / 10)).length := natDigits_length_pos (j / 10)
        simp only [List.length_append, List.length_cons, List.length_nil,
          List.length_singleton]
        omega
      · rw [natDigits_ge10 i (by omega), natDigits_ge10 j (by omega)]
        simp only [List.length_append, List.length_cons, List.length_nil]
        have hd : i / 10 ≤ j / 10 := Nat.div_le_div_right h
        have := ih (j / 10) (Nat.div_lt_self (by omega) (by omega)) hd
        omega

theorem digitsVal_zeros_append (k : Nat) (l : List Char) :
    digitsVal (List.replicate k '0' ++ l) = digitsVal l := by
  induction k with
  | zero => simp
  | succ k ih =>
    have : List.replicate (k + 1) '0' ++ l = '0' :: (List.replicate k '0' ++ l) := by
      simp [List.replicate_succ]
    rw [this]
    simpa [digitsVal] using ih


theorem stripAnsi_nil : stripAnsi [] = [] := by
  simp [stripAnsi]

theorem stripAnsi_cons_esc (rest : List Char) :
    stripAnsi ('\x1b' :: rest) = stripAnsi (dropUntilM rest) := by
  rw [stripAnsi]
  simp

theorem stripAnsi_cons_other {c : Char} (h : c ≠ '\x1b') (rest : List Char) :
    stripAnsi (c :: rest) = c :: stripAnsi rest := by
  rw [stripAnsi]
  simp [h]

theorem stripAnsi_append_of_noEsc {s : List Char} (h : '\x1b' ∉ s)
    (t : List Char) : stripAnsi (s ++ t) = s ++ stripAnsi t := by
  induction s with
  | nil => simp
  | cons c s ih =>
    have hc : c ≠ '\x1b' := fun hc => h (by simp [hc])
    have hs : '\x1b' ∉ s := fun hs => h (by simp [hs])
    simp only [List.cons_append, stripAnsi_cons_other hc, ih hs]

theorem dropUntilM_run {u : List Char} (h : 'm' ∉ u) (t : List Char) :
    dropUntilM (u ++ 'm' :: t) = t := by
  induction u with
  | nil => simp [dropUntilM]
  | cons c u ih =>
    have hc : c ≠ 'm' := fun hc => h (by simp [hc])
    have hu : 'm' ∉ u := fun hu => h (by simp [hu])
    simp [dropUntilM, hc, ih hu]

theorem stripAnsi_color_append {s : List Char} (code : Nat)
    (hcode : decDigit code ≠ 'm') (hs : '\x1b' ∉ s) (t : List Char) :
    stripAnsi (color s code ++ t) = s ++ stripAnsi t := by
  have h1 : color s code ++ t =
      '\x1b' :: (['[', '3', decDigit code] ++ 'm' ::
        (s ++ ('\x1b' :: (['[', '3', '9'] ++ 'm' :: t)))) := by
    simp [color]
  have hm : 'm' ∉ (['[', '3', decDigit code] : List Char) := by
    intro hmem
    rcases List.mem_cons.mp hmem with h | hmem
    · exact absurd h (by decide)
    rcases List.mem_cons.mp hmem with h | hmem
    · exact absurd h (by decide)
    rcases List.mem_cons.mp hmem with h | hmem
    · exact hcode h.symm
    · simp at hmem
  rw [h1, stripAnsi_cons_esc, dropUntilM_run hm _]
  rw [stripAnsi_append_of_noEsc hs, stripAnsi_cons_esc,
    dropUntilM_run (by decide) t]

theorem stripAnsi_bold_color_append {s : List Char} (code : Nat)
    (hcode : decDigit code ≠ 'm') (hs : '\x1b' ∉ s) (t : List Char) :
    stripAnsi (bold (color s code) ++ t) = s ++ stripAnsi t := by
  have h1 : bold (color s code) ++ t =
      '\x1b' :: (['[', '1'] ++ 'm' ::
        (color s code ++ ('\x1b' :: (['[', '0'] ++ 'm' :: t)))) := by
    simp [bold]
  rw [h1, stripAnsi_cons_esc, dropUntilM_run (by decide) _]
  rw [stripAnsi_color_append code hcode hs, stripAnsi_cons_esc,
    dropUntilM_run (by decide) t]

theorem byteLen_nil : byteLen [] = 0 := rfl

theorem byteLen_cons (c : Char) (s : List Char) :
    byteLen (c :: s) = charUtf8Len c + byteLen s := by
  simp [byteLen]

theorem charUtf8Len_pos (c : Char) : 1 ≤ charUtf8Len c := by
  unfold charUtf8Len
  split
  · omega
  · split
    · omega
    · split <;> omega

theorem length_le_byteLen (s : List Char) : s.length ≤ byteLen s := by
  induction s with
  | nil => simp [byteLen_nil]
  | cons c s ih =>
    rw [byteLen_cons]
    have := charUtf8Len_pos c
    simp only [List.length_cons]
    omega

theorem byteLen_ascii {s : List Char} (h : ∀ c ∈ s, charUtf8Len c = 1) :
    byteLen s = s.length := by
  induction s with
  | nil => simp [byteLen_nil]
  | cons c s ih =>
    rw [byteLen_cons, h c (by simp), ih fun c hc => h c (by simp [hc])]
    simp [Nat.add_comm]

theorem takeBytes_ascii {s : List Char} (h : ∀ c ∈ s, charUtf8Len c = 1) :
    ∀ n, takeBytes s n = if n ≤ s.length then some (s.take n) else none := by
  induction s with
  | nil =>
    intro n
    cases n with
    | zero => simp [takeBytes]
    | succ n => simp [takeBytes]
  | cons c s ih =>
    intro n
    cases n with
    | zero => simp [takeBytes]
    | succ n =>
      have hc : charUtf8Len c = 1 := h c (by simp)
      have hs : ∀ x ∈ s, charUtf8Len x = 1 := fun x hx => h x (by simp [hx])
      simp only [takeBytes, hc, ih hs]
      have h1 : (1 : Nat) ≤ n + 1 := by omega
      simp only [h1, if_true, Nat.add_sub_cancel]
      by_cases hn : n ≤ s.length
      · simp [hn, Nat.succ_le_succ hn, List.take_succ_cons]
      · have : ¬ n + 1 ≤ (c :: s).length := by simp; omega
        simp [hn, this]

theorem dropBytes_ascii {s : List Char} (h : ∀ c ∈ s, charUtf8Len c = 1) :
    ∀ n, dropBytes s n = if n ≤ s.length then some (s.drop n) else none := by
  induction s with
  | nil =>
    intro n
    cases n with
    | zero => simp [dropBytes]
    | succ n => simp [dropBytes]
  | cons c s ih =>
    intro n
    cases n with
    | zero => simp [dropBytes]
    | succ n =>
      have hc : charUtf8Len c = 1 := h c (by simp)
      have hs : ∀ x ∈ s, charUtf8Len x = 1 := fun x hx => h x (by simp [hx])
      simp only [dropBytes, hc, ih hs]
      have h1 : (1 : Nat) ≤ n + 1 := by omega
      simp only [h1, if_true, Nat.add_sub_cancel]
      by_cases hn : n ≤ s.length
      · simp [hn, Nat.succ_le_succ hn]
      · have : ¬ n + 1 ≤ (c :: s).length := by simp; omega
        simp [hn, this]

theorem int_factory_ok_bounds {lo hi v : Nat} {raw : List Char}
    (h : int_factory lo hi raw = Except.ok v) : lo ≤ v ∧ v ≤ hi := by
  unfold int_factory at h
  cases hp : parseUsize raw with
  | none => rw [hp] at h; simp at h
  | some u =>
    rw [hp] at h
    by_cases h1 : u < lo
    · simp [h1] at h
    · by_cases h2 : u > hi
      · simp [h1, h2] at h
      · simp [h1, h2] at h
        omega

theorem field_sound {α : Type} (name tyName : List Char) (toStr : α → List Char)
    (V : List Char → Except RoostError α) (dflt : Option α) :
    ∀ (ins : List (List Char)) (r : FieldResult α),
      (field name tyName toStr V dflt ins).2 = some r →
      (∃ d, dflt = some d ∧ r.value = d) ∨ ∃ s, V s = Except.ok r.value := by
  intro ins
  induction ins with
  | nil =>
    intro r h
    simp [field] at h
  | cons raw rest ih =>
    intro r h
    simp only [field] at h
    cases hstrip : stripSuffixNewline raw with
    | none =>
      rw [hstrip] at h
      simp at h
    | some result =>
      rw [hstrip] at h
      dsimp only at h
      by_cases hd : result = [] ∧ dflt.isSome
      · rw [dif_pos hd] at h
        simp only [Option.some.injEq] at h
        left
        exact ⟨dflt.get hd.2, (Option.some_get hd.2).symm, by rw [← h]⟩
      · rw [dif_neg hd] at h
        cases hv : V result with
        | ok value =>
          rw [hv] at h
          simp only [Option.some.injEq] at h
          right
          refine ⟨result, ?_⟩
          rw [hv, ← h]
        | error e =>
          rw [hv] at h
          simp only [Option.map_eq_some'] at h
          obtain ⟨fr, hfr, hmap⟩ := h
          have hval : r.value = fr.value := by rw [← hmap]
          rcases ih fr hfr with h1 | h1
          · left
            obtain ⟨d, hd1, hd2⟩ := h1
            exact ⟨d, hd1, by rw [hval, hd2]⟩
          · right
            obtain ⟨s, hs⟩ := h1
            exact ⟨s, by rw [hval]; exact hs⟩

theorem field_prompt_mem {α : Type} (name tyName : List Char) (toStr : α → List Char)
    (V : List Char → Except RoostError α) (dflt : Option α)
    (ins : List (List Char)) :
    make_prompt name (dflt.map toStr) ∈ (field name tyName toStr V dflt ins).1 := by
  cases ins with
  | nil => simp [field]
  | cons raw rest =>
    simp only [field]
    cases hstrip : stripSuffixNewline raw with
    | none => simp
    | some result =>
      by_cases hd : result = [] ∧ dflt.isSome
      · simp [hd]
      · simp only [dif_neg hd]
        cases hv : V result with
        | ok value => simp
        | error e => simp

theorem collectToSpos_some {inputs : List (List Char)} {tr : List (List Char)}
    {st : MidState} (h : collectToSpos inputs = (tr, some st)) :
    make_prompt "error start position".toList (some (natDigits 0)) ∈ tr ∧
      st.spos ≤ byteLen st.line := by
  simp only [collectToSpos] at h
  cases h1 : (field "summary".toList tyStr id string none inputs).2 with
  | none => rw [h1] at h; simp at h
  | some f1 =>
    rw [h1] at h
    dsimp only at h
    cases h2 : (field "line".toList tyStr id string none f1.rest).2 with
    | none => rw [h2] at h; simp at h
    | some f2 =>
      rw [h2] at h
      dsimp only at h
      cases h3 : (field "error start position".toList tyInt natDigits
          (int_factory 0 (byteLen f2.value)) (some 0) f2.rest).2 with
      | none => rw [h3] at h; simp at h
      | some f3 =>
        rw [h3] at h
        dsimp only at h
        injection h with htr hst
        injection hst with hst'
        constructor
        · rw [← htr]
          have hmem := field_prompt_mem "error start position".toList tyInt natDigits
            (int_factory 0 (byteLen f2.value)) (some 0) f2.rest
          simp only [Option.map_some'] at hmem
          simp only [List.mem_append, List.mem_cons]
          exact Or.inr (Or.inr hmem)
        · rcases field_sound "error start position".toList tyInt natDigits
            (int_factory 0 (byteLen f2.value)) (some 0) f2.rest f3 h3 with hv | hv
          · obtain ⟨d, hd1, hd2⟩ := hv
            have hd0 : d = 0 := by simpa using hd1.symm
            rw [← hst']
            simp [hd2, hd0]
          · obtain ⟨s, hs⟩ := hv
            have hb := int_factory_ok_bounds hs
            rw [← hst']
            simpa using hb.2

theorem collectPhase_of_empty_line {inputs : List (List Char)}
    {tr : List (List Char)} {st : MidState}
    (h : collectToSpos inputs = (tr, some st)) (hline : st.line = []) :
    (collectPhase inputs).2 = none := by
  unfold collectPhase
  rw [h]
  dsimp only
  rw [hline]
  simp [checkedSub, byteLen_nil]

theorem collectPhase_some {inputs : List (List Char)} {rec : ErrorData}
    (h : (collectPhase inputs).2 = some rec) :
    ∃ tr st m f4, collectToSpos inputs = (tr, some st) ∧
      checkedSub (byteLen st.line) 1 = some m ∧
      (field "error end position".toList tyInt natDigits
        (int_factory (st.spos + 1) m) (some m) st.rest).2 = some f4 ∧
      f4.value ≤ m ∧
      rec.line = st.line ∧ rec.spos = st.spos ∧ rec.epos = f4.value + 1 := by
  unfold collectPhase at h
  cases hts : collectToSpos inputs with
  | mk tr op =>
    rw [hts] at h
    cases op with
    | none => dsimp only at h; exact absurd h (by simp)
    | some st =>
      dsimp only at h
      cases hcs : checkedSub (byteLen st.line) 1 with
      | none => rw [hcs] at h; simp at h
      | some m =>
        rw [hcs] at h
        dsimp only at h
        cases h4 : (field "error end position".toList tyInt natDigits
            (int_factory (st.spos + 1) m) (some m) st.rest).2 with
        | none => rw [h4] at h; simp at h
        | some f4 =>
          rw [h4] at h
          dsimp only at h
          cases h5 : (field "message".toList tyStr id string none f4.rest).2 with
          | none => rw [h5] at h; simp at h
          | some f5 =>
            rw [h5] at h
            dsimp only at h
            cases h6 : (field "line number".toList tyInt natDigits
                (int_factory 0 USIZE_MAX) (some DEFAULT_LINENO) f5.rest).2 with
            | none => rw [h6] at h; simp at h
            | some f6 =>
              rw [h6] at h
              dsimp only at h
              cases h7 : (field "path".toList tyStr id string (some DEFAULT_PATH) f6.rest).2 with
              | none => rw [h7] at h; simp at h
              | some f7 =>
                rw [h7] at h
                dsimp only at h
                cases h8 : (field "error number".toList tyInt natDigits
                    (int_factory 0 USIZE_MAX) (some DEFAULT_ERRNUM) f7.rest).2 with
                | none => rw [h8] at h; simp at h
                | some f8 =>
                  rw [h8] at h
                  dsimp only at h
                  have hrec : rec = ⟨st.summary, st.line, f5.value, st.spos,
                      f4.value + 1, f6.value, f7.value, f8.value⟩ := by
                    injection h with h'
                    exact h'.symm
                  have hle : f4.value ≤ m := by
                    rcases field_sound "error end position".toList tyInt natDigits
                      (int_factory (st.spos + 1) m) (some m) st.rest f4 h4 with hv | hv
                    · obtain ⟨d, hd1, hd2⟩ := hv
                      have : d = m := by simpa using hd1.symm
                      omega
                    · obtain ⟨s, hs⟩ := hv
                      exact (int_factory_ok_bounds hs).2
                  exact ⟨tr, st, m, f4, rfl, hcs, h4, hle, by rw [hrec], by rw [hrec],
                    by rw [hrec]⟩

theorem esc_not_mem_gutter (n : Nat) :
    '\x1b' ∉ List.replicate n ' ' ++ "| ".toList := by
  intro hmem
  rcases List.mem_append.mp hmem with hm | hm
  · exact absurd (List.eq_of_mem_replicate hm) (by decide)
  · rcases List.mem_cons.mp hm with h | hm
    · exact absurd h (by decide)
    · rcases List.mem_cons.mp hm with h | hm
      · exact absurd h (by decide)
      · simp at hm

theorem esc_not_mem_digits_gutter (n : Nat) :
    '\x1b' ∉ natDigits n ++ " | ".toList := by
  intro hmem
  rcases List.mem_append.mp hmem with hm | hm
  · have := natDigits_all_digit n '\x1b' hm
    exact absurd this (by decide)
  · rcases List.mem_cons.mp hm with h | hm
    · exact absurd h (by decide)
    rcases List.mem_cons.mp hm with h | hm
    · exact absurd h (by decide)
    rcases List.mem_cons.mp hm with h | hm
    · exact absurd h (by decide)
    · simp at hm

theorem stripAnsi_emptyLine (d : ErrorData) :
    stripAnsi d.emptyLine =
      List.replicate ((natDigits d.lineno).length + 1) ' ' ++ "| ".toList := by
  have h := stripAnsi_color_append 4 (by decide)
    (esc_not_mem_gutter ((natDigits d.lineno).length + 1)) []
  rw [ErrorData.emptyLine, ← List.append_nil
    (color (List.replicate ((natDigits d.lineno).length + 1) ' ' ++ "| ".toList) 4)]
  rw [h, stripAnsi_nil, List.append_nil]

theorem stripAnsi_sourceGutter (d : ErrorData) :
    stripAnsi d.sourceGutter = natDigits d.lineno ++ " | ".toList := by
  have h := stripAnsi_color_append 4 (by decide)
    (esc_not_mem_digits_gutter d.lineno) []
  rw [ErrorData.sourceGutter, ← List.append_nil
    (color (natDigits d.lineno ++ " | ".toList) 4)]
  rw [h, stripAnsi_nil, List.append_nil]

/-- C1: for every record with `0 ≤ start_offset < end_offset ≤ length(line)`
(message taken ESC-free so that "visible character" is well defined), the
caret line of the rendered diagnostic, with ANSI styling stripped, is
exactly: the blank gutter, then `start_offset` spaces, then
`end_offset - start_offset` caret characters, then a space and the
message — so the carets start at visible column `start_offset` of the
source line's displayed row — and the blank gutter has the same visible
width as the source row's line-number gutter. -/
theorem caret_line_layout (d : ErrorData) (_h1 : d.spos < d.epos)
    (_h2 : d.epos ≤ d.line.length) (h3 : '\x1b' ∉ d.message) :
    stripAnsi d.caretLine =
      (List.replicate ((natDigits d.lineno).length + 1) ' ' ++ "| ".toList)
        ++ List.replicate d.spos ' '
        ++ List.replicate (d.epos - d.spos) '^'
        ++ ' ' :: d.message
    ∧ stripAnsi d.sourceGutter = natDigits d.lineno ++ " | ".toList
    ∧ (stripAnsi d.emptyLine).length = (stripAnsi d.sourceGutter).length := by
  have hcaret : '\x1b' ∉ List.replicate (d.epos - d.spos) '^' := by
    intro hm
    exact absurd (List.eq_of_mem_replicate hm) (by decide)
  have hspaces : '\x1b' ∉ List.replicate d.spos ' ' := by
    intro hm
    exact absurd (List.eq_of_mem_replicate hm) (by decide)
  refine ⟨?_, stripAnsi_sourceGutter d, ?_⟩
  · rw [ErrorData.caretLine, ErrorData.emptyLine]
    rw [List.append_assoc, List.append_assoc]
    rw [stripAnsi_color_append 4 (by decide)
      (esc_not_mem_gutter ((natDigits d.lineno).length + 1))]
    rw [stripAnsi_append_of_noEsc hspaces]
    rw [stripAnsi_bold_color_append 1 (by decide) hcaret]
    rw [stripAnsi_cons_other (by decide)]
    rw [← List.append_nil (bold (color d.message 1)),
      stripAnsi_bold_color_append 1 (by decide) h3, stripAnsi_nil, List.append_nil]
    simp [List.append_assoc]
  · rw [stripAnsi_emptyLine, stripAnsi_sourceGutter]
    simp only [List.length_append, List.length_replicate]
    have := natDigits_length_pos d.lineno
    simp

/-- C1 witness: the layout theorem applied to a concrete record. -/
theorem caret_line_layout_w :
    (caretSample.spos < caretSample.epos
      ∧ caretSample.epos ≤ caretSample.line.length
      ∧ '\x1b' ∉ caretSample.message)
    ∧ stripAnsi caretSample.caretLine =
        (List.replicate ((natDigits caretSample.lineno).length + 1) ' ' ++ "| ".toList)
          ++ List.replicate caretSample.spos ' '
          ++ List.replicate (caretSample.epos - caretSample.spos) '^'
          ++ ' ' :: caretSample.message :=
  ⟨⟨by decide, by decide, by decide⟩,
    (caret_line_layout caretSample (by decide) (by decide) (by decide)).1⟩

/-- C2 (code bug): on an empty input line for the required `summary` field,
`field` emits the bold colored "cannot be empty" error — and then still
invokes the `string` validator on the empty text and returns the empty
string (the source lacks a `continue` after the `eprintln!`), instead of
looping back to read input again. -/
theorem field_empty_required_returns :
    (field "summary".toList tyStr id string none [['\n']]).2 =
      some ⟨[], [], [bold (color (errEmptyMsg "summary".toList) 1)], 1⟩ := by
  decide

/-- C3 counterexample: for `line = "é"` (one character, two bytes) and the
valid character-count offsets `start_offset = 0 < end_offset = 1 ≤ 1 =
character-length`, rendering fails (`none` = the byte-slice panic): the
renderer slices by byte index, and byte 1 falls inside the character. -/
theorem print_splits_multibyte_char :
    (['é'] : List Char).length = 1
    ∧ ErrorData.print ⟨['s'], ['é'], ['m'], 0, 1, 1, ['p'], 69⟩ = none := by
  decide

/-- C3 amended: the renderer slices by byte index, not character index.
When every character of `line` is a single-byte character (so byte and
character indices coincide) and `0 ≤ start_offset < end_offset ≤
length(line)`, the three slices are the claimed character segments and
rendering succeeds; the original claim fails for multi-byte characters
(see the counterexample). -/
theorem print_ascii_char_slicing (d : ErrorData)
    (hascii : ∀ c ∈ d.line, charUtf8Len c = 1)
    (h1 : d.spos < d.epos) (h2 : d.epos ≤ d.line.length) :
    sliceBytes d.line 0 d.spos = some (d.line.take d.spos)
    ∧ sliceBytes d.line d.spos d.epos =
        some ((d.line.drop d.spos).take (d.epos - d.spos))
    ∧ dropBytes d.line d.epos = some (d.line.drop d.epos)
    ∧ (ErrorData.print d).isSome := by
  have hspos_le : d.spos ≤ d.line.length := by omega
  have hdropA : ∀ c ∈ d.line.drop d.spos, charUtf8Len c = 1 :=
    fun c hc => hascii c (List.drop_subset _ _ hc)
  have c1 : sliceBytes d.line 0 d.spos = some (d.line.take d.spos) := by
    rw [sliceBytes, if_pos (Nat.zero_le _)]
    rw [dropBytes_ascii hascii 0, if_pos (Nat.zero_le _)]
    simp only [List.drop_zero, Option.some_bind, Nat.sub_zero]
    rw [takeBytes_ascii hascii d.spos, if_pos hspos_le]
  have c2 : sliceBytes d.line d.spos d.epos =
      some ((d.line.drop d.spos).take (d.epos - d.spos)) := by
    rw [sliceBytes, if_pos (Nat.le_of_lt h1)]
    rw [dropBytes_ascii hascii d.spos, if_pos hspos_le]
    simp only [Option.some_bind]
    rw [takeBytes_ascii hdropA (d.epos - d.spos),
      if_pos (by simp [List.length_drop]; omega)]
  have c3 : dropBytes d.line d.epos = some (d.line.drop d.epos) := by
    rw [dropBytes_ascii hascii d.epos, if_pos h2]
  refine ⟨c1, c2, c3, ?_⟩
  rw [ErrorData.print]
  rw [c1, c2, c3]
  simp

/-- C3 witness: the ASCII slicing theorem applied to a concrete record. -/
theorem print_ascii_char_slicing_w :
    ((∀ c ∈ asciiSample.line, charUtf8Len c = 1)
      ∧ asciiSample.spos < asciiSample.epos
      ∧ asciiSample.epos ≤ asciiSample.line.length)
    ∧ (ErrorData.print asciiSample).isSome :=
  ⟨⟨by decide, by decide, by decide⟩,
    (print_ascii_char_slicing asciiSample (by decide) (by decide) (by decide)).2.2.2⟩

/-- C4 counterexample: the operator can enter `start_offset = length(line)`
(accepted by `int_factory(0, line.len())`) and then take the default end
position; the collected record then has `spos = epos` (here both `2` for
`line = "ab"`), violating the claimed invariant `start_offset <
end_offset`. -/
theorem collect_default_epos_violation :
    ((collectPhase [['s', '\n'], "ab\n".toList, "2\n".toList, ['\n'],
        "m\n".toList, ['\n'], ['\n'], ['\n']]).2.map fun r => (r.spos, r.epos)) =
      some (2, 2)
    ∧ ¬ (2 < 2) := by
  decide

/-- C4 amended: every record the collection phase can hand to the renderer
satisfies `spos ≤ epos` and `epos ≤ length(line)`, and satisfies the
claimed strict `spos < epos` whenever `spos < length(line)`; the strict
invariant fails only in the boundary case `spos = length(line)` with the
defaulted end position (see the counterexample).  The renderer indeed
performs no re-check. -/
theorem collect_span_invariant (inputs : List (List Char)) (rec : ErrorData)
    (h : (collectPhase inputs).2 = some rec) :
    rec.spos ≤ rec.epos ∧ rec.epos ≤ byteLen rec.line
    ∧ (rec.spos < byteLen rec.line → rec.spos < rec.epos) := by
  obtain ⟨tr, st, m, f4, hts, hcs, h4, hle, hline, hspos, hepos⟩ := collectPhase_some h
  have hsb : st.spos ≤ byteLen st.line := (collectToSpos_some hts).2
  have hm : 1 ≤ byteLen st.line ∧ m = byteLen st.line - 1 := by
    rw [checkedSub] at hcs
    by_cases hx : 1 ≤ byteLen st.line
    · rw [if_pos hx] at hcs
      exact ⟨hx, by injection hcs with h'; omega⟩
    · rw [if_neg hx] at hcs
      exact absurd hcs (by simp)
  rcases field_sound "error end position".toList tyInt natDigits
      (int_factory (st.spos + 1) m) (some m) st.rest f4 h4 with hv | hv
  · obtain ⟨dv, hd1, hd2⟩ := hv
    have hdm : dv = m := by simpa using hd1.symm
    rw [hline, hspos, hepos, hd2, hdm]
    omega
  · obtain ⟨s, hs⟩ := hv
    have hb := int_factory_ok_bounds hs
    rw [hline, hspos, hepos]
    omega

/-- C4 witness: the invariant theorem applied to a concrete collected
record (all-defaults span on `line = "ab"`). -/
theorem collect_span_invariant_w :
    (collectPhase [['s', '\n'], "ab\n".toList, ['\n'], ['\n'], "m\n".toList,
        ['\n'], ['\n'], ['\n']]).2 =
      some ⟨['s'], "ab".toList, ['m'], 0, 2, 1, DEFAULT_PATH, 69⟩
    ∧ ((⟨['s'], "ab".toList, ['m'], 0, 2, 1, DEFAULT_PATH, 69⟩ : ErrorData).spos ≤
          (⟨['s'], "ab".toList, ['m'], 0, 2, 1, DEFAULT_PATH, 69⟩ : ErrorData).epos
      ∧ (⟨['s'], "ab".toList, ['m'], 0, 2, 1, DEFAULT_PATH, 69⟩ : ErrorData).epos ≤
          byteLen (⟨['s'], "ab".toList, ['m'], 0, 2, 1, DEFAULT_PATH, 69⟩ : ErrorData).line
      ∧ ((⟨['s'], "ab".toList, ['m'], 0, 2, 1, DEFAULT_PATH, 69⟩ : ErrorData).spos <
            byteLen (⟨['s'], "ab".toList, ['m'], 0, 2, 1, DEFAULT_PATH, 69⟩ : ErrorData).line →
          (⟨['s'], "ab".toList, ['m'], 0, 2, 1, DEFAULT_PATH, 69⟩ : ErrorData).spos <
            (⟨['s'], "ab".toList, ['m'], 0, 2, 1, DEFAULT_PATH, 69⟩ : ErrorData).epos)) :=
  ⟨by decide,
    collect_span_invariant [['s', '\n'], "ab\n".toList, ['\n'], ['\n'], "m\n".toList,
      ['\n'], ['\n'], ['\n']] ⟨['s'], "ab".toList, ['m'], 0, 2, 1, DEFAULT_PATH, 69⟩ (by decide)⟩

/-- C5: on an empty input line, a field with a default returns the default
immediately: the unread input, the emitted errors and the validator
invocation count of the attempt are all empty/zero, for every validator,
default and remaining input. -/
theorem field_default_on_empty {α : Type} (name tyName : List Char)
    (toStr : α → List Char) (V : List Char → Except RoostError α) (d : α)
    (rest : List (List Char)) :
    field name tyName toStr V (some d) (['\n'] :: rest) =
      ([make_prompt name (some (toStr d))], some ⟨d, rest, [], 0⟩) := by
  rfl

/-- C6: for every non-negative `error_number`, the error identifier is `E`
followed by the decimal digits zero-padded on the left to at least 4
digits; the width grows without truncation (the digit part always parses
back to `error_number` and consists of digits only); `69` gives `E0069`
and `123456` gives `E123456`. -/
theorem get_errid_format (d : ErrorData) :
    d.get_errid =
      'E' :: (List.replicate (4 - (natDigits d.errnum).length) '0' ++ natDigits d.errnum)
    ∧ d.get_errid.length = 1 + max 4 (natDigits d.errnum).length
    ∧ digitsVal d.get_errid.tail = d.errnum
    ∧ (∀ c ∈ d.get_errid.tail, c.isDigit)
    ∧ (⟨[], [], [], 0, 0, 0, [], 69⟩ : ErrorData).get_errid = "E0069".toList
    ∧ (⟨[], [], [], 0, 0, 0, [], 123456⟩ : ErrorData).get_errid = "E123456".toList := by
  refine ⟨rfl, ?_, ?_, ?_, by decide, by decide⟩
  · simp only [ErrorData.get_errid, List.length_cons, List.length_append,
      List.length_replicate]
    omega
  · simp only [ErrorData.get_errid, List.tail_cons]
    rw [digitsVal_zeros_append, digitsVal_natDigits]
  · simp only [ErrorData.get_errid, List.tail_cons]
    intro c hc
    rcases List.mem_append.mp hc with hm | hm
    · rw [List.eq_of_mem_replicate hm]
      decide
    · exact natDigits_all_digit d.errnum c hm

/-- C7: for `min ≤ max`, `int_factory(min, max)` accepts exactly the raw
texts that parse (as a machine non-negative integer) to a value in
`[min, max]`, returning that value, and fails with three pairwise
distinct messages for the three cases: unparseable text, parsed value
below `min`, parsed value above `max`. -/
theorem int_factory_spec (lo hi : Nat) (raw : List Char) (_hle : lo ≤ hi) :
    (∀ v, int_factory lo hi raw = Except.ok v ↔
        (parseUsize raw = some v ∧ lo ≤ v ∧ v ≤ hi))
    ∧ (parseUsize raw = none →
        int_factory lo hi raw =
          Except.error (RoostError.ValueError "invalid value".toList))
    ∧ (∀ v, parseUsize raw = some v → v < lo →
        int_factory lo hi raw =
          Except.error (RoostError.ValueError "value is too smol".toList))
    ∧ (∀ v, parseUsize raw = some v → hi < v →
        int_factory lo hi raw =
          Except.error (RoostError.ValueError "value is too big".toList))
    ∧ ("invalid value".toList ≠ "value is too smol".toList
        ∧ "invalid value".toList ≠ "value is too big".toList
        ∧ "value is too smol".toList ≠ "value is too big".toList) := by
  refine ⟨?_, ?_, ?_, ?_, by decide, by decide, by decide⟩
  · intro v
    unfold int_factory
    cases hp : parseUsize raw with
    | none => simp
    | some u =>
      by_cases h1 : u < lo
      · simp only [h1, if_true]
        constructor
        · intro h
          exact absurd h (by simp)
        · rintro ⟨hu, hlo, hhi⟩
          injection hu with hu
          omega
      · by_cases h2 : u > hi
        · simp only [h1, if_false, h2, if_true]
          constructor
          · intro h
            exact absurd h (by simp)
          · rintro ⟨hu, hlo, hhi⟩
            injection hu with hu
            omega
        · simp only [h1, if_false, h2, if_true]
          constructor
          · intro h
            injection h with h
            exact ⟨by rw [h], by omega, by omega⟩
          · rintro ⟨hu, hlo, hhi⟩
            injection hu with hu
            rw [hu]
  · intro hp
    unfold int_factory
    rw [hp]
  · intro v hp hv
    unfold int_factory
    rw [hp]
    simp [hv]
  · intro v hp hv
    unfold int_factory
    rw [hp]
    have : ¬ v < lo := by omega
    simp [this, hv]

/-- C7 witness: the validator specification applied at concrete bounds and
inputs. -/
theorem int_factory_spec_w :
    (2 ≤ 5)
    ∧ int_factory 2 5 "3".toList = Except.ok 3
    ∧ int_factory 2 5 "1".toList =
        Except.error (RoostError.ValueError "value is too smol".toList)
    ∧ int_factory 2 5 "9".toList =
        Except.error (RoostError.ValueError "value is too big".toList)
    ∧ int_factory 2 5 "x".toList =
        Except.error (RoostError.ValueError "invalid value".toList) := by
  have h := int_factory_spec 2 5 "3".toList (by decide)
  have h1 := int_factory_spec 2 5 "1".toList (by decide)
  have h9 := int_factory_spec 2 5 "9".toList (by decide)
  have hx := int_factory_spec 2 5 "x".toList (by decide)
  exact ⟨by decide, (h.1 3).mpr ⟨by decide, by decide, by decide⟩,
    h1.2.2.1 1 (by decide) (by decide),
    h9.2.2.2.1 9 (by decide) (by decide),
    hx.2.1 (by decide)⟩

theorem flatten_map_length {β : Type} (f : β → List Char) (w : Nat) :
    ∀ l : List β, (∀ x ∈ l, (f x).length = w) →
      ((l.map f).flatten).length = l.length * w := by
  intro l
  induction l with
  | nil => intro _; simp
  | cons x l ih =>
    intro h
    simp only [List.map_cons, List.flatten_cons, List.length_append,
      List.length_cons]
    rw [h x (by simp), ih fun y hy => h y (by simp [hy])]
    ring

theorem centerPad_length {s : List Char} {w : Nat} (h : s.length ≤ w) :
    (centerPad s w).length = w := by
  simp only [centerPad, List.length_append, List.length_replicate]
  omega

/-- C8 counterexample: for `line = "é"` the index row has one block per
byte (two blocks, four cells) while the character row has one block per
character (one block, two cells), so the rows do not consist of one
equal-width block per character; moreover even for a pure-ASCII line of
eleven characters (column width 3) the two-digit index `10` is centered
half a cell off the center of its character block. -/
theorem ruler_misalignment :
    (indexRow ['é']).length ≠ (charRow ['é']).length
    ∧ (indexRow ['é']).length = 4 ∧ (charRow ['é']).length = 2
    ∧ (['é'] : List Char).length = 1
    ∧ last_char_no_len (List.replicate 11 'a') = 3
    ∧ blockCenter2 (natDigits 10) 3 ≠ blockCenter2 ['a'] 3 := by
  decide

/-- C8 amended: for a line of single-byte characters the ruler prints one
centered width-`last_char_no_len` block per character in each row, and
the index block and the character block at position `i` share the same
horizontal center whenever the decimal representation of `i` has an odd
number of digits (in particular for all lines of at most ten characters);
for `"ab"` the rows are exactly `"0 1 "` and `"a b "` (not `"0  1"` /
`"a  b"`).  For lines with multi-byte characters the index row instead
has one block per byte, and two-digit indices sit half a cell off
center (see the counterexample). -/
theorem ruler_alignment_singlebyte (line : List Char)
    (hascii : ∀ c ∈ line, charUtf8Len c = 1) :
    (indexRow line).length = line.length * last_char_no_len line
    ∧ (charRow line).length = line.length * last_char_no_len line
    ∧ (∀ i, i < line.length → (natDigits i).length % 2 = 1 →
        ∀ c : Char, blockCenter2 (natDigits i) (last_char_no_len line) =
          blockCenter2 [c] (last_char_no_len line))
    ∧ indexRow ['a', 'b'] = "0 1 ".toList
    ∧ charRow ['a', 'b'] = "a b ".toList := by
  have hb : byteLen line = line.length := byteLen_ascii hascii
  have hw : (natDigits (byteLen line)).length + 1 = last_char_no_len line := rfl
  have hwge : 1 ≤ (natDigits (byteLen line)).length := natDigits_length_pos _
  have hdig : ∀ i, i < line.length →
      (natDigits i).length < last_char_no_len line := by
    intro i hi
    have : i ≤ byteLen line := by omega
    have := natDigits_length_mono this
    omega
  refine ⟨?_, ?_, ?_, by decide, by decide⟩
  · rw [indexRow, flatten_map_length _ (last_char_no_len line)]
    · simp [hb]
    · intro i hi
      exact centerPad_length (Nat.le_of_lt (hdig i (by simpa [hb] using List.mem_range.mp hi)))
  · rw [charRow, flatten_map_length _ (last_char_no_len line)]
    · intro c _
      exact centerPad_length (by simp; omega)
  · intro i hi hodd c
    have hL := hdig i hi
    simp only [blockCenter2, List.length_singleton]
    omega

/-- C8 witness: the alignment theorem applied to the concrete line `"ab"`. -/
theorem ruler_alignment_singlebyte_w :
    (∀ c ∈ (['a', 'b'] : List Char), charUtf8Len c = 1)
    ∧ indexRow ['a', 'b'] = "0 1 ".toList
    ∧ charRow ['a', 'b'] = "a b ".toList :=
  ⟨by decide, (ruler_alignment_singlebyte ['a', 'b'] (by decide)).2.2.2⟩

/-- C9 counterexample: with inputs `summary = "s"`, `line = ""` (the empty
input is accepted for the required `line` field through the missing
`continue` of src/main.rs:152-173), and an empty (defaulted) start
offset, the collection phase panics (`none`) — but the start offset
*was* prompted for before the panic: the `error start position` prompt is
in the stdout trace, refuting "before any span offset is prompted for". -/
theorem collect_empty_line_panic_after_prompt :
    (collectPhase [['s', '\n'], ['\n'], ['\n']]).2 = none
    ∧ make_prompt "error start position".toList (some (natDigits 0)) ∈
        (collectPhase [['s', '\n'], ['\n'], ['\n']]).1 := by
  decide

/-- C9 amended: if the collected `line` is empty the collection phase
panics (the debug-mode underflow of `line.len() - 1`) while setting up
the end-position field's bounds and default — after the start offset has
been prompted for and collected, before the end-position prompt — and a
diagnostic record is produced only when `length(line) ≥ 1`. -/
theorem collect_empty_line_panics :
    (∀ inputs tr st, collectToSpos inputs = (tr, some st) →
        make_prompt "error start position".toList (some (natDigits 0)) ∈ tr
        ∧ (st.line = [] → (collectPhase inputs).2 = none))
    ∧ (∀ inputs rec, (collectPhase inputs).2 = some rec → 1 ≤ rec.line.length) := by
  constructor
  · intro inputs tr st h
    exact ⟨(collectToSpos_some h).1, fun hl => collectPhase_of_empty_line h hl⟩
  · intro inputs rec h
    obtain ⟨tr, st, m, f4, hts, hcs, h4, hle, hline, _, _⟩ := collectPhase_some h
    have h1 : 1 ≤ byteLen st.line := by
      rw [checkedSub] at hcs
      by_cases hx : 1 ≤ byteLen st.line
      · exact hx
      · rw [if_neg hx] at hcs
        exact absurd hcs (by simp)
    rw [hline]
    cases hl : st.line with
    | nil => rw [hl, byteLen_nil] at h1; omega
    | cons a l => simp

/-- C9 witness: the amended theorem applied to a concrete session (the
happy path on `line = "ab"` for part two, and the panicking empty-line
session for part one). -/
theorem collect_empty_line_panics_w :
    (collectPhase [['s', '\n'], "ab\n".toList, ['\n'], ['\n'], "m\n".toList,
        ['\n'], ['\n'], ['\n']]).2 =
      some ⟨['s'], "ab".toList, ['m'], 0, 2, 1, DEFAULT_PATH, 69⟩
    ∧ 1 ≤ (⟨['s'], "ab".toList, ['m'], 0, 2, 1, DEFAULT_PATH,
        (69 : Nat)⟩ : ErrorData).line.length :=
  ⟨by decide,
    collect_empty_line_panics.2 [['s', '\n'], "ab\n".toList, ['\n'], ['\n'],
      "m\n".toList, ['\n'], ['\n'], ['\n']]
      ⟨['s'], "ab".toList, ['m'], 0, 2, 1, DEFAULT_PATH, 69⟩ (by decide)⟩

/-- C10: the field collector requires every read line to end in a newline:
without one it panics (`none`) rather than re-prompting or reporting a
validation failure; stripping removes exactly one trailing newline, and
the stripped text is what reaches the empty-input check and the
validator. -/
theorem field_newline_required {α : Type} (name tyName : List Char)
    (toStr : α → List Char) (V : List Char → Except RoostError α)
    (dflt : Option α) (raw : List Char) (rest : List (List Char))
    (t : List Char) (v : α) :
    (raw.getLast? ≠ some '\n' → (field name tyName toStr V dflt (raw :: rest)).2 = none)
    ∧ stripSuffixNewline (t ++ ['\n']) = some t
    ∧ (t ≠ [] → V t = Except.ok v →
        (field name tyName toStr V dflt ((t ++ ['\n']) :: rest)).2 =
          some ⟨v, rest, [], 1⟩) := by
  have hstrip : stripSuffixNewline (t ++ ['\n']) = some t := by
    rw [stripSuffixNewline]
    rw [List.getLast?_concat, if_pos rfl, List.dropLast_concat]
  refine ⟨?_, hstrip, ?_⟩
  · intro hne
    have hs : stripSuffixNewline raw = none := by
      rw [stripSuffixNewline, if_neg hne]
    simp [field, hs]
  · intro ht hv
    simp only [field]
    rw [hstrip]
    dsimp only
    rw [dif_neg (by simp [ht])]
    rw [hv]
    simp [ht]

/-- C10 witness: the newline requirement applied to concrete inputs. -/
theorem field_newline_required_w :
    (field "path".toList tyStr id string (some DEFAULT_PATH) [['x']]).2 = none
    ∧ stripSuffixNewline (['a'] ++ ['\n']) = some ['a']
    ∧ (field "path".toList tyStr id string (some DEFAULT_PATH)
        [(['a'] ++ ['\n'])]).2 = some ⟨['a'], [], [], 1⟩ := by
  have h := field_newline_required "path".toList tyStr id string
    (some DEFAULT_PATH) ['x'] [] ['a'] ['a']
  exact ⟨h.1 (by decide), h.2.1, h.2.2 (by decide) rfl⟩
